import Mathlib

/-!
# Verification of the `dioxus-shareables` reactive shared-state core

Shallow embedding of the crate's reactive cell (`src/shared.rs`), the
owner-erasing projection pointer (`src/arcmap.rs`) and the capability
lattice (`src/struct/mod.rs`, module `sealed`), with proofs of the
spec's claims about them.

The listener registry (`LinkUpdateMap` in the source, a hash map from
subscriber id to a pair of a reference count and a callback) is embedded
as an association list with unique keys; callbacks are kept abstract in
a type parameter `Cb`.  Rust `usize` counts are embedded as `Nat`; the
only subtraction performed by the source (`*c -= 1` in `drop_listener`)
happens under the registry invariant that stored counts are at least 1,
where `Nat` subtraction and `usize` subtraction agree.
-/

namespace Shareables

/-- One registry entry: the reference count and the callback, embedding the
pair `(usize, Arc<dyn Send + Sync + Fn()>)` stored in `LinkUpdateMap`. -/
structure Entry (Cb : Type) where
  count : Nat
  cb : Cb
deriving DecidableEq, Repr

/-- The listener registry `LinkUpdateMap = FxHashMap<usize, (usize, Arc<dyn Fn()>)>`,
embedded as an association list keyed by subscriber id. -/
abbrev LinkUpdateMap (Cb : Type) := List (Nat × Entry Cb)

/-- First-match lookup in the registry, embedding `HashMap::get`. -/
def lookupEntry {Cb : Type} : LinkUpdateMap Cb → Nat → Option (Entry Cb)
  | [], _ => none
  | (k, e) :: rest, id => if k = id then some e else lookupEntry rest id

/-- The registry keys are pairwise distinct (a hash map cannot hold two
entries with the same key). -/
abbrev KeysNodup {Cb : Type} (m : LinkUpdateMap Cb) : Prop :=
  (m.map Prod.fst).Nodup

/-- All stored reference counts are positive (the registry invariant the
source maintains: entries are inserted at count 1 and removed at 0). -/
def GoodMap {Cb : Type} (m : LinkUpdateMap Cb) : Prop :=
  ∀ p ∈ m, 0 < (Prod.snd p).count

/-- `Link::add_listener` (src/shared.rs:55-62):
`self.1.write().unwrap().entry(id).or_insert_with(|| (0, f)).0 += 1` —
if the id is present its count is incremented and its stored callback kept;
otherwise the entry is inserted at count 0 and incremented to 1. -/
def add_listener {Cb : Type} : LinkUpdateMap Cb → Nat → Cb → LinkUpdateMap Cb
  | [], id, f => [(id, ⟨1, f⟩)]
  | (k, e) :: rest, id, f =>
    if k = id then (k, ⟨e.count + 1, e.cb⟩) :: rest
    else (k, e) :: add_listener rest id f

/-- `Link::drop_listener` (src/shared.rs:63-74): if the id is present its
count is decremented and the entry removed when the count reaches 0; on an
absent id the local `c` is set to 1 and nothing happens. -/
def drop_listener {Cb : Type} : LinkUpdateMap Cb → Nat → LinkUpdateMap Cb
  | [], _ => []
  | (k, e) :: rest, id =>
    if k = id then
      (if e.count - 1 = 0 then rest else (k, ⟨e.count - 1, e.cb⟩) :: rest)
    else (k, e) :: drop_listener rest id

/-- `Link::needs_update` (src/shared.rs:75-85): the listeners invoked by one
notification — every entry whose count is positive, each paired with its
subscriber id.  The source iterates the registry under a read lock and calls
`u()` on the filtered entries, mutating nothing. -/
def notifyList {Cb : Type} (m : LinkUpdateMap Cb) : List (Nat × Cb) :=
  (m.filter fun p => decide (0 < p.2.count)).map fun p => (p.1, p.2.cb)

/-- Number of occurrences of an element in a list (used to state "invoked
exactly once"). -/
def occCount {α : Type} [DecidableEq α] (a : α) (l : List α) : Nat :=
  (l.filter fun b => decide (b = a)).length

/-- The state of one `Link<T>`: the value slot (`RwLock<T>`) and the listener
registry (`RwLock<LinkUpdateMap>`). -/
structure LinkState (T Cb : Type) where
  value : T
  reg : LinkUpdateMap Cb
deriving DecidableEq, Repr

/-- `Link::needs_update` as a state transformer: it returns the invoked
listeners and the (untouched) link state — the source only takes the
registry's read lock. -/
def needs_update {T Cb : Type} (l : LinkState T Cb) : LinkState T Cb × List (Nat × Cb) :=
  (l, notifyList l.reg)

/-! ## Write paths of `Shared` (src/shared.rs:281-321)

A tracked write `*h.write() = v` is, in source order: `self.link.needs_update()`
(which invokes the listeners), then `self.link.borrow_mut()` acquiring the
exclusive guard, then the assignment through the guard, then the guard drop.
We record the observable events of such a path in a trace. -/

/-- An observable event of a write path on one cell: one `needs_update()`
call with the listeners it invoked, or the value mutation performed through
the exclusive write guard. -/
inductive CellEvent (T Cb : Type) where
  | notified (invoked : List (Nat × Cb))
  | stored (v : T)
deriving DecidableEq, Repr

/-- A cell together with the trace of events its write paths produced. -/
structure CellState (T Cb : Type) where
  value : T
  reg : LinkUpdateMap Cb
  trace : List (CellEvent T Cb)
deriving DecidableEq, Repr

/-- The event step of one `self.link.needs_update()` call: the listeners
with positive count are invoked; value and registry are untouched. -/
def needs_update_ev {T Cb : Type} (s : CellState T Cb) : CellState T Cb :=
  { s with trace := s.trace ++ [CellEvent.notified (notifyList s.reg)] }

/-- The event step of storing `v` through the exclusive guard returned by
`self.link.borrow_mut()` (the assignment `*guard = v`, after which the guard
is dropped). -/
def store_ev {T Cb : Type} (s : CellState T Cb) (v : T) : CellState T Cb :=
  { s with value := v, trace := s.trace ++ [CellEvent.stored v] }

/-- The tracked write path `*h.write() = v`: `Shared::write`
(src/shared.rs:281-284) runs `self.link.needs_update()` and then returns
`self.link.borrow_mut()`; the caller stores `v` through the guard. -/
def write_path {T Cb : Type} (s : CellState T Cb) (v : T) : CellState T Cb :=
  store_ev (needs_update_ev s) v

/-- The silent write path `*h.write_silent() = v` (src/shared.rs:288-290):
only `self.link.borrow_mut()` is taken; no notification. -/
def write_silent_path {T Cb : Type} (s : CellState T Cb) (v : T) : CellState T Cb :=
  store_ev s v

/-- `Shared::set` (src/shared.rs:299-306):
`if *self.link.borrow() != t { *self.write() = t; }`. -/
def set_path {T Cb : Type} [DecidableEq T] (s : CellState T Cb) (t : T) : CellState T Cb :=
  if s.value ≠ t then write_path s t else s

/-- `Shared::set_with` (src/shared.rs:311-321): reads the current value,
computes `updated = f(&prev)` and performs a tracked write only when they
differ. -/
def set_with_path {T Cb : Type} [DecidableEq T] (s : CellState T Cb) (f : T → T) :
    CellState T Cb :=
  let updated := f s.value
  if s.value ≠ updated then write_path s updated else s

/-! ## Handle clone and registry op sequences -/

/-- The callback `Arc::new(|| {})` that `Clone for Shared` registers
(src/shared.rs:234-245): a closure that does nothing, embedded as the
identity on an abstract world of scheduler state. -/
def noop_cb (W : Type) : W → W := fun w => w

/-- The registry effect of `Clone for Shared<T, B>` (src/shared.rs:234-245):
if the handle carries a subscriber id it calls
`self.link.add_listener(id, Arc::new(|| {}))`; otherwise the registry is
untouched. -/
def shared_clone_reg {W : Type} (reg : LinkUpdateMap (W → W)) :
    Option Nat → LinkUpdateMap (W → W)
  | some i => add_listener reg i (noop_cb W)
  | Option.none => reg

/-- One registry operation, for reasoning about call sequences. -/
inductive RegOp (Cb : Type) where
  | add (id : Nat) (cb : Cb)
  | drop (id : Nat)
deriving DecidableEq, Repr

/-- Apply a sequence of `add_listener`/`drop_listener` calls. -/
def applyOps {Cb : Type} : List (RegOp Cb) → LinkUpdateMap Cb → LinkUpdateMap Cb
  | [], m => m
  | RegOp.add id f :: rest, m => applyOps rest (add_listener m id f)
  | RegOp.drop id :: rest, m => applyOps rest (drop_listener m id)

/-- Number of `add_listener` calls for a given id in a sequence. -/
def addCount {Cb : Type} (id : Nat) : List (RegOp Cb) → Nat
  | [] => 0
  | RegOp.add j _ :: rest => (if j = id then 1 else 0) + addCount id rest
  | RegOp.drop _ :: rest => addCount id rest

/-- Number of `drop_listener` calls for a given id in a sequence. -/
def dropCount {Cb : Type} (id : Nat) : List (RegOp Cb) → Nat
  | [] => 0
  | RegOp.add _ _ :: rest => dropCount id rest
  | RegOp.drop j :: rest => (if j = id then 1 else 0) + dropCount id rest

/-- A sequence is valid from a registry when every `drop_listener` call
happens while its id is present (each drop is paired with an earlier add, the
discipline `Drop for Shared` maintains). -/
def validFrom {Cb : Type} : LinkUpdateMap Cb → List (RegOp Cb) → Bool
  | _, [] => true
  | m, RegOp.add id f :: rest => validFrom (add_listener m id f) rest
  | m, RegOp.drop id :: rest =>
    (lookupEntry m id).isSome && validFrom (drop_listener m id) rest

/-- The reference count the registry holds for an id (0 when absent). -/
def countOf {Cb : Type} (m : LinkUpdateMap Cb) (id : Nat) : Nat :=
  match lookupEntry m id with
  | some e => e.count
  | Option.none => 0

/-! ## The projection pointer `ArcMap` (src/arcmap.rs)

Addresses are abstract naturals: `inner` is the address of the projected
target (`NonNull<T>`), `outer` identifies the type-erased owner allocation
(`Box<dyn Arc>`); a pure projection `fn(&T) -> &U` is a deterministic map on
addresses. -/

/-- The embedding of `ArcMap<T>`: the projected target address and the
identity of the reference-counted owner. -/
structure ArcMapM where
  inner : Nat
  outer : Nat
deriving DecidableEq, Repr

/-- `Clone for ArcMap` (src/arcmap.rs:73-83): copies `inner` and clones the
owner (`outer` handle unchanged in identity). -/
def ArcMapM.clone (a : ArcMapM) : ArcMapM :=
  { inner := a.inner, outer := a.outer }

/-- `ArcMap::map` (src/arcmap.rs:19-31): applies `f` to the current target
and keeps the same owner (`outer: self.outer`). -/
def ArcMapM.map (a : ArcMapM) (f : Nat → Nat) : ArcMapM :=
  { inner := f a.inner, outer := a.outer }

/-- `ArcMap::ptr_eq` (src/arcmap.rs:33-35): identity of the projected target
addresses. -/
def ArcMapM.ptr_eq (a b : ArcMapM) : Bool :=
  a.inner == b.inner

/-! ## The lazily populated singleton slot (src/shared.rs:351-367)

`Shared::from_shareable(opt, f)`: when the `Shareable` slot already holds a
link it is cloned and `f` is not called; otherwise `f()` is run once, a fresh
link is created, and the slot is populated with it.  `fresh` stands for the
identity of the newly allocated link. -/

/-- One `Shared::from_shareable` call: returns the handle's link identity,
the new slot state, and whether the initializer `f` was run. -/
def from_shareable (slot : Option Nat) (fresh : Nat) : Nat × Option Nat × Bool :=
  match slot with
  | some p => (p, some p, false)
  | Option.none => (fresh, some fresh, true)

/-- Iterate `from_shareable` n times against the same slot, threading the
slot state and drawing pairwise distinct fresh link identities; returns for
each call the handle's link identity and whether the initializer ran. -/
def run_shares : Nat → Option Nat → Nat → List (Nat × Bool)
  | 0, _, _ => []
  | n + 1, slot, fresh =>
    let r := from_shareable slot fresh
    (r.1, r.2.2) :: run_shares n r.2.1 (fresh + 1)

/-! ## The capability lattice (src/struct/mod.rs, module `sealed`) -/

/-- The three capability markers: `()` (no access), `crate::W` (write) and
`crate::RW` (read-write). -/
inductive Cap where
  | none
  | w
  | rw
deriving DecidableEq, Repr

/-- The `CombineFlag` associated type table (src/struct/mod.rs:1369-1398),
one case per `impl`. -/
def combineFlag : Cap → Cap → Cap
  | .none, .none => .none
  | .none, .w => .w
  | .none, .rw => .rw
  | .w, .none => .w
  | .w, .w => .w
  | .w, .rw => .rw
  | .rw, .none => .rw
  | .rw, .w => .rw
  | .rw, .rw => .rw

/-- The `ImpliesFlag` trait (src/struct/mod.rs:1400-1404): `impliesFlag a b`
holds exactly when `impl ImpliesFlag<b> for a` exists — every flag implies
`()`, `W` implies `W`, and `RW` implies `W` and `RW`. -/
def impliesFlag : Cap → Cap → Bool
  | _, .none => true
  | .w, .w => true
  | .rw, .w => true
  | .rw, .rw => true
  | _, _ => false

/-! ## Registry lemmas -/

theorem lookupEntry_add_present {Cb : Type} {m : LinkUpdateMap Cb} {id : Nat} {e : Entry Cb}
    (f : Cb) (h : lookupEntry m id = some e) :
    lookupEntry (add_listener m id f) id = some ⟨e.count + 1, e.cb⟩ := by
  induction m with
  | nil => simp [lookupEntry] at h
  | cons p rest ih =>
    obtain ⟨k, e'⟩ := p
    by_cases hk : k = id
    · subst hk
      simp [lookupEntry] at h
      simp [add_listener, lookupEntry, h]
    · simp [lookupEntry, hk] at h
      simp [add_listener, lookupEntry, hk, ih h]

theorem lookupEntry_add_absent {Cb : Type} {m : LinkUpdateMap Cb} {id : Nat}
    (f : Cb) (h : lookupEntry m id = none) :
    lookupEntry (add_listener m id f) id = some ⟨1, f⟩ := by
  induction m with
  | nil => simp [add_listener, lookupEntry]
  | cons p rest ih =>
    obtain ⟨k, e'⟩ := p
    by_cases hk : k = id
    · subst hk; simp [lookupEntry] at h
    · simp [lookupEntry, hk] at h
      simp [add_listener, lookupEntry, hk, ih h]

theorem lookupEntry_add_ne {Cb : Type} (m : LinkUpdateMap Cb) (id j : Nat)
    (f : Cb) (h : j ≠ id) :
    lookupEntry (add_listener m id f) j = lookupEntry m j := by
  induction m with
  | nil => simp [add_listener, lookupEntry, Ne.symm h]
  | cons p rest ih =>
    obtain ⟨k, e'⟩ := p
    by_cases hk : k = id
    · subst hk
      simp [add_listener, lookupEntry, Ne.symm h]
    · by_cases hj : k = j <;> simp [add_listener, lookupEntry, hk, hj, h, ih]

theorem drop_listener_absent {Cb : Type} {m : LinkUpdateMap Cb} {id : Nat}
    (h : lookupEntry m id = none) : drop_listener m id = m := by
  induction m with
  | nil => simp [drop_listener]
  | cons p rest ih =>
    obtain ⟨k, e⟩ := p
    by_cases hk : k = id
    · subst hk; simp [lookupEntry] at h
    · simp [lookupEntry, hk] at h
      simp [drop_listener, hk, ih h]

theorem lookupEntry_drop_ne {Cb : Type} (m : LinkUpdateMap Cb) (id j : Nat) (h : j ≠ id) :
    lookupEntry (drop_listener m id) j = lookupEntry m j := by
  induction m with
  | nil => simp [drop_listener]
  | cons p rest ih =>
    obtain ⟨k, e⟩ := p
    by_cases hk : k = id
    · subst hk
      by_cases hc : e.count - 1 = 0 <;>
        simp [drop_listener, lookupEntry, hc, Ne.symm h]
    · by_cases hj : k = j <;> simp [drop_listener, lookupEntry, hk, hj, h, ih]

theorem countOf_add_self {Cb : Type} (m : LinkUpdateMap Cb) (id : Nat) (f : Cb) :
    countOf (add_listener m id f) id = countOf m id + 1 := by
  unfold countOf
  cases h : lookupEntry m id with
  | some e => rw [lookupEntry_add_present f h]
  | none => rw [lookupEntry_add_absent f h]

theorem countOf_add_ne {Cb : Type} (m : LinkUpdateMap Cb) (id j : Nat) (f : Cb)
    (h : j ≠ id) : countOf (add_listener m id f) j = countOf m j := by
  unfold countOf
  rw [lookupEntry_add_ne m id j f h]

theorem countOf_drop_ne {Cb : Type} (m : LinkUpdateMap Cb) (id j : Nat)
    (h : j ≠ id) : countOf (drop_listener m id) j = countOf m j := by
  unfold countOf
  rw [lookupEntry_drop_ne m id j h]

theorem lookupEntry_some_mem {Cb : Type} {m : LinkUpdateMap Cb} {id : Nat} {e : Entry Cb}
    (h : lookupEntry m id = some e) : (id, e) ∈ m := by
  induction m with
  | nil => simp [lookupEntry] at h
  | cons p rest ih =>
    obtain ⟨k, e'⟩ := p
    by_cases hk : k = id
    · subst hk
      simp [lookupEntry] at h
      simp [h]
    · simp [lookupEntry, hk] at h
      exact List.mem_cons_of_mem _ (ih h)

theorem lookupEntry_none_iff {Cb : Type} (m : LinkUpdateMap Cb) (id : Nat) :
    lookupEntry m id = none ↔ id ∉ m.map Prod.fst := by
  induction m with
  | nil => simp [lookupEntry]
  | cons p rest ih =>
    obtain ⟨k, e⟩ := p
    by_cases hk : k = id
    · subst hk; simp [lookupEntry]
    · simp [lookupEntry, hk, ih, Ne.symm hk]

theorem lookupEntry_cons_ne {Cb : Type} {k id : Nat} (e : Entry Cb)
    (rest : LinkUpdateMap Cb) (h : k ≠ id) :
    lookupEntry ((k, e) :: rest) id = lookupEntry rest id := by
  simp [lookupEntry, h]

theorem countOf_cons_ne {Cb : Type} {k id : Nat} (e : Entry Cb)
    (rest : LinkUpdateMap Cb) (h : k ≠ id) :
    countOf ((k, e) :: rest) id = countOf rest id := by
  simp [countOf, lookupEntry_cons_ne e rest h]

theorem mem_lookupEntry_of_nodup {Cb : Type} {m : LinkUpdateMap Cb} {id : Nat} {e : Entry Cb}
    (hn : KeysNodup m) (h : (id, e) ∈ m) : lookupEntry m id = some e := by
  induction m with
  | nil => simp at h
  | cons p rest ih =>
    obtain ⟨k, e'⟩ := p
    simp only [KeysNodup, List.map_cons, List.nodup_cons] at hn
    rcases List.mem_cons.mp h with h1 | h1
    · injection h1 with h2 h3
      subst h2
      subst h3
      simp [lookupEntry]
    · have hk : k ≠ id := by
        intro hkid
        apply hn.1
        rw [hkid]
        exact List.mem_map.mpr ⟨(id, e), h1, rfl⟩
      rw [lookupEntry_cons_ne e' rest hk]
      exact ih hn.2 h1

theorem countOf_drop_self {Cb : Type} {m : LinkUpdateMap Cb} (id : Nat)
    (hn : KeysNodup m) : countOf (drop_listener m id) id = countOf m id - 1 := by
  induction m with
  | nil => simp [drop_listener, countOf, lookupEntry]
  | cons p rest ih =>
    obtain ⟨k, e⟩ := p
    simp only [KeysNodup, List.map_cons, List.nodup_cons] at hn
    by_cases hk : k = id
    · subst hk
      have hrest : lookupEntry rest k = none := by
        rw [lookupEntry_none_iff]
        exact hn.1
      by_cases hc : e.count - 1 = 0
      · have h1 : drop_listener ((k, e) :: rest) k = rest := by
          simp [drop_listener, hc]
        have h2 : countOf rest k = 0 := by simp [countOf, hrest]
        have h3 : countOf ((k, e) :: rest) k = e.count := by
          simp [countOf, lookupEntry]
        rw [h1]
        omega
      · have h1 : drop_listener ((k, e) :: rest) k
            = (k, ⟨e.count - 1, e.cb⟩) :: rest := by
          simp [drop_listener, hc]
        have h2 : countOf ((k, Entry.mk (e.count - 1) e.cb) :: rest) k = e.count - 1 := by
          simp [countOf, lookupEntry]
        have h3 : countOf ((k, e) :: rest) k = e.count := by
          simp [countOf, lookupEntry]
        rw [h1]
        omega
    · have h1 : drop_listener ((k, e) :: rest) id = (k, e) :: drop_listener rest id := by
        simp [drop_listener, hk]
      rw [h1, countOf_cons_ne e (drop_listener rest id) hk, countOf_cons_ne e rest hk]
      exact ih hn.2

/-! ## Notification lemmas -/

theorem mem_notifyList {Cb : Type} (m : LinkUpdateMap Cb) (id : Nat) (cb : Cb) :
    (id, cb) ∈ notifyList m ↔ ∃ e : Entry Cb, (id, e) ∈ m ∧ 0 < e.count ∧ e.cb = cb := by
  constructor
  · intro h
    obtain ⟨p, hp, hpe⟩ := List.mem_map.mp h
    obtain ⟨hmem, hct⟩ := List.mem_filter.mp hp
    injection hpe with h1 h2
    exact ⟨p.2, h1 ▸ (by simpa using hmem), by simpa using hct, h2⟩
  · rintro ⟨e, hmem, hct, hcb⟩
    exact List.mem_map.mpr ⟨(id, e),
      List.mem_filter.mpr ⟨hmem, by simpa using hct⟩, by simp [hcb]⟩

theorem notifyList_keys_sublist {Cb : Type} (m : LinkUpdateMap Cb) :
    ((notifyList m).map Prod.fst).Sublist (m.map Prod.fst) := by
  have h1 : (notifyList m).map Prod.fst
      = (m.filter fun p => decide (0 < p.2.count)).map Prod.fst := by
    simp [notifyList]
  rw [h1]
  exact (List.filter_sublist m).map Prod.fst

theorem notifyList_nodup {Cb : Type} {m : LinkUpdateMap Cb} (hn : KeysNodup m) :
    (notifyList m).Nodup :=
  List.Nodup.of_map Prod.fst (List.Nodup.sublist (notifyList_keys_sublist m) hn)

theorem occCount_eq_one {α : Type} [DecidableEq α] {a : α} {l : List α}
    (hn : l.Nodup) (h : a ∈ l) : occCount a l = 1 := by
  induction l with
  | nil => simp at h
  | cons x rest ih =>
    rcases List.mem_cons.mp h with h1 | h1
    · subst h1
      have hx : a ∉ rest := (List.nodup_cons.mp hn).1
      have hfil : rest.filter (fun b => decide (b = a)) = [] := by
        apply List.filter_eq_nil_iff.mpr
        intro b hb
        simp only [decide_eq_true_eq]
        intro hbx
        exact hx (hbx ▸ hb)
      simp [occCount, hfil]
    · have hx : x ≠ a := by
        intro hxa
        exact (List.nodup_cons.mp hn).1 (hxa ▸ h1)
      have hrec := ih (List.nodup_cons.mp hn).2 h1
      simp only [occCount, List.filter_cons] at hrec ⊢
      simp [hx, hrec]

theorem notifyList_count_one {Cb : Type} [DecidableEq Cb] {m : LinkUpdateMap Cb}
    {id : Nat} {e : Entry Cb} (hn : KeysNodup m)
    (h : lookupEntry m id = some e) (hc : 0 < e.count) :
    occCount (id, e.cb) (notifyList m) = 1 :=
  occCount_eq_one (notifyList_nodup hn)
    ((mem_notifyList m id e.cb).mpr ⟨e, lookupEntry_some_mem h, hc, rfl⟩)

theorem notifyList_not_mem_zero {Cb : Type} {m : LinkUpdateMap Cb}
    {id : Nat} {e : Entry Cb} (hn : KeysNodup m)
    (h : lookupEntry m id = some e) (hc : e.count = 0) (cb : Cb) :
    (id, cb) ∉ notifyList m := by
  intro hmem
  obtain ⟨e', hmem', hct', _⟩ := (mem_notifyList m id cb).mp hmem
  have : lookupEntry m id = some e' := mem_lookupEntry_of_nodup hn hmem'
  rw [h] at this
  injection this with h1
  subst h1
  omega

theorem notifyList_not_mem_absent {Cb : Type} {m : LinkUpdateMap Cb} {id : Nat}
    (h : lookupEntry m id = none) (cb : Cb) : (id, cb) ∉ notifyList m := by
  intro hmem
  obtain ⟨e', hmem', _, _⟩ := (mem_notifyList m id cb).mp hmem
  have : id ∈ m.map Prod.fst := List.mem_map.mpr ⟨(id, e'), hmem', rfl⟩
  exact ((lookupEntry_none_iff m id).mp h) this

/-! ## Invariant preservation for registry op sequences -/

theorem mem_keys_add {Cb : Type} (m : LinkUpdateMap Cb) (id j : Nat) (f : Cb) :
    j ∈ (add_listener m id f).map Prod.fst ↔ j ∈ m.map Prod.fst ∨ j = id := by
  induction m with
  | nil => simp [add_listener]
  | cons p rest ih =>
    obtain ⟨k, e⟩ := p
    by_cases hk : k = id
    · subst hk
      simp [add_listener]
      tauto
    · simp [add_listener, hk, ih]
      tauto

theorem add_listener_cons_self {Cb : Type} (k : Nat) (e : Entry Cb)
    (rest : LinkUpdateMap Cb) (f : Cb) :
    add_listener ((k, e) :: rest) k f = (k, ⟨e.count + 1, e.cb⟩) :: rest := by
  simp [add_listener]

theorem add_listener_cons_ne {Cb : Type} {k id : Nat} (e : Entry Cb)
    (rest : LinkUpdateMap Cb) (f : Cb) (h : k ≠ id) :
    add_listener ((k, e) :: rest) id f = (k, e) :: add_listener rest id f := by
  simp [add_listener, h]

theorem keysNodup_add {Cb : Type} {m : LinkUpdateMap Cb} (id : Nat) (f : Cb)
    (hn : KeysNodup m) : KeysNodup (add_listener m id f) := by
  induction m with
  | nil => simp [add_listener, KeysNodup]
  | cons p rest ih =>
    obtain ⟨k, e⟩ := p
    simp only [KeysNodup, List.map_cons, List.nodup_cons] at hn
    by_cases hk : k = id
    · subst hk
      rw [add_listener_cons_self]
      simp only [KeysNodup, List.map_cons, List.nodup_cons]
      exact hn
    · rw [add_listener_cons_ne e rest f hk]
      simp only [KeysNodup, List.map_cons, List.nodup_cons]
      refine ⟨?_, ih hn.2⟩
      intro hmem
      rcases (mem_keys_add rest id k f).mp hmem with h1 | h1
      · exact hn.1 h1
      · exact hk h1

theorem keys_drop_sublist {Cb : Type} (m : LinkUpdateMap Cb) (id : Nat) :
    ((drop_listener m id).map Prod.fst).Sublist (m.map Prod.fst) := by
  induction m with
  | nil => simp [drop_listener]
  | cons p rest ih =>
    obtain ⟨k, e⟩ := p
    by_cases hk : k = id
    · subst hk
      by_cases hc : e.count - 1 = 0
      · simp only [drop_listener, if_pos rfl, if_pos hc, List.map_cons]
        exact (List.sublist_cons_self _ _)
      · simp only [drop_listener, if_pos rfl, if_neg hc, List.map_cons]
        exact List.Sublist.cons₂ _ (List.Sublist.refl _)
    · simp only [drop_listener, if_neg hk, List.map_cons]
      exact List.Sublist.cons₂ _ ih

theorem keysNodup_drop {Cb : Type} {m : LinkUpdateMap Cb} (id : Nat)
    (hn : KeysNodup m) : KeysNodup (drop_listener m id) :=
  List.Nodup.sublist (keys_drop_sublist m id) hn

theorem goodMap_add {Cb : Type} {m : LinkUpdateMap Cb} (id : Nat) (f : Cb)
    (hg : GoodMap m) : GoodMap (add_listener m id f) := by
  induction m with
  | nil =>
    intro p hp
    simp [add_listener] at hp
    subst hp
    simp
  | cons q rest ih =>
    obtain ⟨k, e⟩ := q
    by_cases hk : k = id
    · subst hk
      intro p hp
      simp only [add_listener, if_pos rfl] at hp
      rcases List.mem_cons.mp hp with h1 | h1
      · subst h1; simp
      · exact hg p (List.mem_cons_of_mem _ h1)
    · intro p hp
      simp only [add_listener, if_neg hk] at hp
      rcases List.mem_cons.mp hp with h1 | h1
      · subst h1
        exact hg (k, e) (List.mem_cons_self _ _)
      · exact ih (fun q hq => hg q (List.mem_cons_of_mem _ hq)) p h1

theorem goodMap_drop {Cb : Type} {m : LinkUpdateMap Cb} (id : Nat)
    (hg : GoodMap m) : GoodMap (drop_listener m id) := by
  induction m with
  | nil => intro p hp; simp [drop_listener] at hp
  | cons q rest ih =>
    obtain ⟨k, e⟩ := q
    have hgrest : GoodMap rest := fun q hq => hg q (List.mem_cons_of_mem _ hq)
    by_cases hk : k = id
    · subst hk
      by_cases hc : e.count - 1 = 0
      · intro p hp
        simp only [drop_listener, if_pos rfl, if_pos hc] at hp
        exact hgrest p hp
      · intro p hp
        simp only [drop_listener, if_pos rfl, if_neg hc] at hp
        rcases List.mem_cons.mp hp with h1 | h1
        · subst h1
          simp
          omega
        · exact hgrest p h1
    · intro p hp
      simp only [drop_listener, if_neg hk] at hp
      rcases List.mem_cons.mp hp with h1 | h1
      · subst h1
        exact hg (k, e) (List.mem_cons_self _ _)
      · exact ih hgrest p h1

theorem applyOps_invariant {Cb : Type} (ops : List (RegOp Cb)) :
    ∀ m : LinkUpdateMap Cb, KeysNodup m → GoodMap m → validFrom m ops = true →
      KeysNodup (applyOps ops m) ∧ GoodMap (applyOps ops m) ∧
      ∀ id, countOf (applyOps ops m) id + dropCount id ops
          = countOf m id + addCount id ops := by
  induction ops with
  | nil =>
    intro m hn hg _
    exact ⟨hn, hg, fun id => by simp [applyOps, addCount, dropCount]⟩
  | cons op rest ih =>
    intro m hn hg hv
    cases op with
    | add j f =>
      have hv' : validFrom (add_listener m j f) rest = true := by
        simpa [validFrom] using hv
      obtain ⟨h1, h2, h3⟩ :=
        ih (add_listener m j f) (keysNodup_add j f hn) (goodMap_add j f hg) hv'
      refine ⟨h1, h2, fun id => ?_⟩
      have h4 := h3 id
      have hap : applyOps (RegOp.add j f :: rest) m
          = applyOps rest (add_listener m j f) := rfl
      have hd : dropCount id (RegOp.add j f :: rest) = dropCount id rest := by
        simp [dropCount]
      rw [hap, hd]
      by_cases hj : j = id
      · subst hj
        rw [countOf_add_self] at h4
        have ha : addCount j (RegOp.add j f :: rest) = 1 + addCount j rest := by
          simp [addCount]
        rw [ha]
        omega
      · rw [countOf_add_ne m j id f (Ne.symm hj)] at h4
        have ha : addCount id (RegOp.add j f :: rest) = addCount id rest := by
          simp [addCount, hj]
        rw [ha]
        omega
    | drop j =>
      simp only [validFrom, Bool.and_eq_true] at hv
      have hsome : (lookupEntry m j).isSome = true := hv.1
      have hv' : validFrom (drop_listener m j) rest = true := hv.2
      obtain ⟨h1, h2, h3⟩ :=
        ih (drop_listener m j) (keysNodup_drop j hn) (goodMap_drop j hg) hv'
      refine ⟨h1, h2, fun id => ?_⟩
      have h4 := h3 id
      have hap : applyOps (RegOp.drop j :: rest) m
          = applyOps rest (drop_listener m j) := rfl
      have ha : addCount id (RegOp.drop j :: rest) = addCount id rest := by
        simp [addCount]
      rw [hap, ha]
      by_cases hj : j = id
      · subst hj
        obtain ⟨e, he⟩ := Option.isSome_iff_exists.mp hsome
        have hpos : 0 < e.count := hg (j, e) (lookupEntry_some_mem he)
        have hcm : countOf m j = e.count := by simp [countOf, he]
        rw [countOf_drop_self j hn] at h4
        have hd : dropCount j (RegOp.drop j :: rest) = 1 + dropCount j rest := by
          simp [dropCount]
        rw [hd]
        omega
      · rw [countOf_drop_ne m j id (Ne.symm hj)] at h4
        have hd : dropCount id (RegOp.drop j :: rest) = dropCount id rest := by
          simp [dropCount, hj]
        rw [hd]
        omega

theorem run_shares_populated (p : Nat) : ∀ n fresh : Nat,
    run_shares n (some p) fresh = List.replicate n (p, false) := by
  intro n
  induction n with
  | zero => intro fresh; simp [run_shares]
  | succ k ih =>
    intro fresh
    simp [run_shares, from_shareable, List.replicate, ih]

/-! ## Claim theorems -/

/-- Claim C1 (amended): a tracked write `*h.write() = v` triggers listener
notification first — at the time `write()` is called, before the exclusive
guard is acquired — and then performs the value mutation through the guard;
all listeners with positive count are notified and the registry is untouched.
The silent write path stores the value with no notification. -/
theorem write_path_order (T Cb : Type) (s : CellState T Cb) (v : T) :
    (write_path s v).value = v
    ∧ (write_path s v).reg = s.reg
    ∧ (write_path s v).trace
        = s.trace ++ [CellEvent.notified (notifyList s.reg), CellEvent.stored v]
    ∧ (write_silent_path s v).value = v
    ∧ (write_silent_path s v).trace = s.trace ++ [CellEvent.stored v] := by
  refine ⟨rfl, rfl, ?_, rfl, rfl⟩
  simp [write_path, store_ev, needs_update_ev]

/-- Claim C1, counterexample to the claim as stated: the tracked write path
does not produce the value mutation first and the notification afterwards —
on a cell holding 900 with one active listener, writing 901 produces the
notification event before the store event, not after it. -/
theorem write_path_claim_order_cex :
    (write_path (CellState.mk 900 [(7, Entry.mk 1 5)] [] : CellState Nat Nat) 901).trace
      ≠ [CellEvent.stored 901,
         CellEvent.notified (notifyList [(7, Entry.mk 1 5)])] := by
  decide

/-- Claim C2: `needs_update` (the crate's notify) invokes every listener
entry with positive count exactly once, never invokes an entry with count 0
nor an absent id, and leaves the link (value and registry) unchanged. -/
theorem needs_update_spec (T Cb : Type) [DecidableEq Cb] (l : LinkState T Cb)
    (h : KeysNodup l.reg) :
    (∀ id e, lookupEntry l.reg id = some e → 0 < e.count →
        occCount (id, e.cb) (needs_update l).2 = 1)
    ∧ (∀ id e, lookupEntry l.reg id = some e → e.count = 0 →
        (id, e.cb) ∉ (needs_update l).2)
    ∧ (∀ id cb, lookupEntry l.reg id = none → (id, cb) ∉ (needs_update l).2)
    ∧ (needs_update l).1 = l := by
  refine ⟨?_, ?_, ?_, rfl⟩
  · intro id e he hc
    exact notifyList_count_one h he hc
  · intro id e he hc
    exact notifyList_not_mem_zero h he hc _
  · intro id cb hnone
    exact notifyList_not_mem_absent hnone cb

/-- Claim C2 witness: on a registry with one active listener (id 7, count 1)
its callback is invoked exactly once. -/
theorem needs_update_spec_witness :
    occCount (7, 5)
      (needs_update (LinkState.mk 900 [(7, Entry.mk 1 5)] : LinkState Nat Nat)).2 = 1 :=
  (needs_update_spec Nat Nat (LinkState.mk 900 [(7, Entry.mk 1 5)]) (by decide)).1
    7 (Entry.mk 1 5) (by decide) (by decide)

/-- Claim C3: `set` leaves the cell entirely unchanged (no store, no
notification) when the current value equals the argument, and otherwise
stores the new value with exactly one notification round in which each
active listener is invoked once; `set_with` behaves the same with candidate
`f` applied to the current value. -/
theorem set_spec (T Cb : Type) [DecidableEq T] [DecidableEq Cb]
    (s : CellState T Cb) (v : T) (f : T → T) (h : KeysNodup s.reg) :
    (s.value = v → set_path s v = s)
    ∧ (s.value ≠ v → (set_path s v).value = v
        ∧ (set_path s v).trace
            = s.trace ++ [CellEvent.notified (notifyList s.reg), CellEvent.stored v]
        ∧ ∀ id e, lookupEntry s.reg id = some e → 0 < e.count →
            occCount (id, e.cb) (notifyList s.reg) = 1)
    ∧ (f s.value = s.value → set_with_path s f = s)
    ∧ (f s.value ≠ s.value → (set_with_path s f).value = f s.value
        ∧ (set_with_path s f).trace
            = s.trace ++ [CellEvent.notified (notifyList s.reg),
                CellEvent.stored (f s.value)]) := by
  refine ⟨?_, ?_, ?_, ?_⟩
  · intro hv
    simp [set_path, hv]
  · intro hv
    have hpath : set_path s v = write_path s v := by simp [set_path, hv]
    rw [hpath]
    refine ⟨rfl, ?_, ?_⟩
    · simp [write_path, store_ev, needs_update_ev]
    · intro id e he hc
      exact notifyList_count_one h he hc
  · intro hv
    have hcond : ¬ s.value ≠ f s.value := by simp [hv]
    simp [set_with_path, hcond]
  · intro hv
    have hne : s.value ≠ f s.value := fun heq => hv heq.symm
    have hpath : set_with_path s f = write_path s (f s.value) := by
      simp [set_with_path, hne]
    rw [hpath]
    exact ⟨rfl, by simp [write_path, store_ev, needs_update_ev]⟩

/-- Claim C3 witness: setting a cell holding 900 to 900 changes nothing. -/
theorem set_spec_witness :
    set_path (CellState.mk 900 [(7, Entry.mk 1 5)] [] : CellState Nat Nat) 900
      = CellState.mk 900 [(7, Entry.mk 1 5)] [] :=
  (set_spec Nat Nat (CellState.mk 900 [(7, Entry.mk 1 5)] []) 900 (fun x => x)
    (by decide)).1 rfl

/-- Claim C4 (amended): after any sequence of `add_listener`/`drop_listener`
calls from the empty registry in which every drop happens while its id is
registered, an entry exists iff its count is at least 1, and the count of an
entry equals the number of adds minus the number of drops for that id. -/
theorem listener_refcount_discipline {Cb : Type} (ops : List (RegOp Cb)) (id : Nat)
    (h : validFrom [] ops = true) :
    ((lookupEntry (applyOps ops []) id).isSome ↔ 1 ≤ countOf (applyOps ops []) id)
    ∧ dropCount id ops ≤ addCount id ops
    ∧ countOf (applyOps ops []) id = addCount id ops - dropCount id ops := by
  have hinit : KeysNodup ([] : LinkUpdateMap Cb) := by simp [KeysNodup]
  have hginit : GoodMap ([] : LinkUpdateMap Cb) := fun p hp => by simp at hp
  obtain ⟨hn, hg, hcount⟩ := applyOps_invariant ops [] hinit hginit h
  have h4 := hcount id
  have hzero : countOf ([] : LinkUpdateMap Cb) id = 0 := by
    simp [countOf, lookupEntry]
  rw [hzero] at h4
  refine ⟨?_, by omega, by omega⟩
  constructor
  · intro hs
    obtain ⟨e, he⟩ := Option.isSome_iff_exists.mp hs
    have hp : 0 < e.count := hg (id, e) (lookupEntry_some_mem he)
    have hce : countOf (applyOps ops []) id = e.count := by simp [countOf, he]
    omega
  · intro hc
    cases hlook : lookupEntry (applyOps ops []) id with
    | some e => simp [hlook]
    | none =>
      have : countOf (applyOps ops []) id = 0 := by simp [countOf, hlook]
      omega

/-- Claim C4 witness: for the balanced sequence add 0, add 0, drop 0 the
resulting count is adds minus drops. -/
theorem listener_refcount_discipline_witness :
    countOf (applyOps [RegOp.add 0 (0 : Nat), RegOp.add 0 0, RegOp.drop 0] []) 0
      = addCount 0 [RegOp.add 0 (0 : Nat), RegOp.add 0 0, RegOp.drop 0]
        - dropCount 0 [RegOp.add 0 (0 : Nat), RegOp.add 0 0, RegOp.drop 0] :=
  (listener_refcount_discipline [RegOp.add 0 (0 : Nat), RegOp.add 0 0, RegOp.drop 0]
    0 (by decide)).2.2

/-- Claim C4, counterexample to the claim as stated: over the sequence
drop 0 then add 0 (the drop is a tolerated no-op on the empty registry), the
entry for id 0 has count 1 while adds minus drops is 0. -/
theorem listener_refcount_unbalanced_cex :
    ¬ (countOf (applyOps [RegOp.drop 0, RegOp.add 0 (0 : Nat)] []) 0
        = addCount 0 [RegOp.drop 0, RegOp.add 0 (0 : Nat)]
          - dropCount 0 [RegOp.drop 0, RegOp.add 0 (0 : Nat)]) := by
  decide

/-- Claim C5: `drop_listener` on an id with no registry entry is a no-op:
the registry is returned unchanged (no underflow, no failure — the
embedding is a total function). -/
theorem drop_listener_absent_noop {Cb : Type} (m : LinkUpdateMap Cb) (id : Nat)
    (h : lookupEntry m id = none) : drop_listener m id = m :=
  drop_listener_absent h

/-- Claim C5 witness: dropping absent id 0 leaves a one-entry registry
unchanged. -/
theorem drop_listener_absent_noop_witness :
    drop_listener [(1, Entry.mk 2 (0 : Nat))] 0 = [(1, Entry.mk 2 (0 : Nat))] :=
  drop_listener_absent_noop [(1, Entry.mk 2 (0 : Nat))] 0 (by decide)

/-- Claim C6: the capability combine operator is the join of the
three-element lattice: commutative, associative, idempotent, with `none` as
unit, `w ⊔ w = w`, and anything joined with `rw` giving `rw`. -/
theorem combineFlag_join_semilattice :
    ∀ a b c : Cap,
      combineFlag a b = combineFlag b a
      ∧ combineFlag (combineFlag a b) c = combineFlag a (combineFlag b c)
      ∧ combineFlag a a = a
      ∧ combineFlag Cap.none a = a
      ∧ combineFlag Cap.w Cap.w = Cap.w
      ∧ combineFlag a Cap.rw = Cap.rw := by
  intro a b c
  cases a <;> cases b <;> cases c <;> exact ⟨rfl, rfl, rfl, rfl, rfl, rfl⟩

/-- Claim C7: `impliesFlag a b` holds iff `b = none`, or `a = b`, or
`a = rw`; in particular rw implies w, w implies none and every flag implies
itself, while none does not imply w and w does not imply rw. -/
theorem impliesFlag_order_spec :
    ∀ a b : Cap,
      (impliesFlag a b = true ↔ b = Cap.none ∨ a = b ∨ a = Cap.rw)
      ∧ impliesFlag Cap.rw Cap.w = true
      ∧ impliesFlag Cap.w Cap.none = true
      ∧ impliesFlag a a = true
      ∧ impliesFlag Cap.none Cap.w = false
      ∧ impliesFlag Cap.w Cap.rw = false := by
  intro a b
  cases a <;> cases b <;> decide

/-- Claim C8: cloning an `ArcMap` yields an identity-equal pointer; two
clones of the same pointer projected with the same pure function are
identity-equal; and projection keeps the same underlying owner handle. -/
theorem arcmap_projection_identity :
    ∀ (p : ArcMapM) (f : Nat → Nat),
      ArcMapM.ptr_eq (ArcMapM.clone p) p = true
      ∧ ArcMapM.ptr_eq (ArcMapM.map (ArcMapM.clone p) f)
          (ArcMapM.map (ArcMapM.clone p) f) = true
      ∧ (ArcMapM.map p f).outer = p.outer
      ∧ (ArcMapM.clone p).outer = p.outer := by
  intro p f
  refine ⟨?_, ?_, rfl, rfl⟩ <;> simp [ArcMapM.ptr_eq, ArcMapM.clone, ArcMapM.map]

/-- Claim C9: iterated `from_shareable` construction against one slot runs
the initializer exactly once — on the first call, which populates the slot —
and every later call returns a handle to the same underlying link without
re-running the initializer. -/
theorem from_shareable_initializer_once (n fresh : Nat) (h : 1 ≤ n) :
    run_shares n Option.none fresh
      = (fresh, true) :: List.replicate (n - 1) (fresh, false) := by
  cases n with
  | zero => omega
  | succ k =>
    simp [run_shares, from_shareable, run_shares_populated]

/-- Claim C9 witness: three constructions from the empty slot run the
initializer once and all share cell 0. -/
theorem from_shareable_initializer_once_witness :
    run_shares 3 Option.none 0 = (0, true) :: List.replicate 2 (0, false) :=
  from_shareable_initializer_once 3 0 (by decide)

/-- Claim C10: `add_listener` on an existing id increments the count but
keeps the stored callback; hence cloning a subscribed `Shared` (which
registers `Arc::new(|| {})`) never changes which callback runs for that id,
and when no entry existed at the moment of cloning, the clone's entry holds
a callback that does nothing when notified. -/
theorem clone_preserves_callbacks (W : Type) (reg : LinkUpdateMap (W → W)) (i : Nat) :
    (∀ id f e, lookupEntry reg id = some e →
        lookupEntry (add_listener reg id f) id = some (Entry.mk (e.count + 1) e.cb))
    ∧ (∀ e, lookupEntry reg i = some e →
        lookupEntry (shared_clone_reg reg (some i)) i
          = some (Entry.mk (e.count + 1) e.cb))
    ∧ (lookupEntry reg i = none →
        lookupEntry (shared_clone_reg reg (some i)) i = some (Entry.mk 1 (noop_cb W))
        ∧ ∀ w, noop_cb W w = w) := by
  refine ⟨?_, ?_, ?_⟩
  · intro id f e he
    exact lookupEntry_add_present f he
  · intro e he
    exact lookupEntry_add_present (noop_cb W) he
  · intro hnone
    exact ⟨lookupEntry_add_absent (noop_cb W) hnone, fun w => rfl⟩

/-- Claim C10 witness: cloning a subscribed handle over a registry that
already holds id 0 with callback `n + 1` keeps that callback and bumps the
count to 2. -/
theorem clone_preserves_callbacks_witness :
    lookupEntry (shared_clone_reg [(0, Entry.mk 1 (fun n : Nat => n + 1))] (some 0)) 0
      = some (Entry.mk 2 (fun n : Nat => n + 1)) :=
  (clone_preserves_callbacks Nat [(0, Entry.mk 1 (fun n : Nat => n + 1))] 0).2.1
    (Entry.mk 1 (fun n : Nat => n + 1)) rfl

end Shareables
